import Mathlib

/-!
Shallow embedding of the vitree tree widget (src/node.rs, src/iter.rs,
src/dynamic.rs, src/view.rs), together with proofs about its flattening,
index-seek, iteration, controller and windowing behaviour.

Modelling conventions:
* `Rc<TreeNode>` trees with interior mutability become a pure inductive
  tree; mutation of the node found through the flat map becomes
  path-addressed rebuilding (`updateAt` / `insertAt`), with the path
  playing the role of the parent chain.
* `IndexMap<KEY_TYPE, Rc<TreeNode>>` (insertion ordered) becomes a
  `List (Nat × TreeNode)`; the claims operate under sibling/global key
  uniqueness, where the two agree.
* Rust panics (`panic!`, `.unwrap()`, `.unwrap_throw()`) are modelled as
  `Except.error` with the panic message: the source defines no typed
  error type, so every `Except.error` in this development is an
  uncontrolled abort of the corresponding Rust code.
* machine integers (`usize`, `u16`) are modelled as `Nat`; the only
  subtraction performed by the modelled code (`index - offset` in
  `find_by_index_internal`) is guarded by an explicit underflow check
  that mirrors the `usize` underflow panic.
-/

/-- The flag bits of `TreeFlags` in src/node.rs (`ROOT`, `EXPANDED`,
`LOADING`, `READY`) plus the `EXPANDABLE` capability bit that
src/dynamic.rs tests (`TreeFlags::EXPANDABLE`) and src/plain.rs and
src/root.rs store in the node data. -/
structure TreeFlags where
  root : Bool := false
  expanded : Bool := false
  loading : Bool := false
  ready : Bool := false
  expandable : Bool := false
deriving DecidableEq, Repr

/-- A tree node: `TreeNode`/`TreeNodeInner` of src/node.rs.  Fields
`key` (from the node data), `flags`, the cached `children_len`
(`subtree_size`: number of descendants), and the ordered child list
(the `IndexMap` values in insertion order). -/
inductive TreeNode : Type where
  | mk (key : Nat) (flags : TreeFlags) (childrenLen : Nat)
      (children : List TreeNode) : TreeNode

def TreeNode.key : TreeNode → Nat
  | .mk k _ _ _ => k

def TreeNode.flags : TreeNode → TreeFlags
  | .mk _ fl _ _ => fl

def TreeNode.childrenLen : TreeNode → Nat
  | .mk _ _ len _ => len

def TreeNode.children : TreeNode → List TreeNode
  | .mk _ _ _ cs => cs

/-- Model of `TreeNode::set_flags` (src/node.rs): replace the flag word,
leaving everything else untouched. -/
def TreeNode.set_flags : TreeNode → TreeFlags → TreeNode
  | .mk k _ len cs, fl => .mk k fl len cs

/-- `flatten_internal` of src/node.rs lifted to a child list: emit each
node unless it carries `ROOT`, and descend into its children exactly
when the node itself carries `EXPANDED`; siblings in insertion order. -/
def flattenList : List TreeNode → List (Nat × TreeNode)
  | [] => []
  | TreeNode.mk k fl len cs :: rest =>
    ((if fl.root then [] else [(k, TreeNode.mk k fl len cs)]) ++
      (if fl.expanded then flattenList cs else [])) ++ flattenList rest

/-- `TreeNode::flatten_internal` (src/node.rs lines 180-194): insert the
node itself unless it is `ROOT`, then stop unless it is `EXPANDED`,
else recurse into the children in order. -/
def TreeNode.flatten_internal (t : TreeNode) : List (Nat × TreeNode) :=
  (if t.flags.root then [] else [(t.key, t)]) ++
    (if t.flags.expanded then flattenList t.children else [])

/-- `TreeNode::flatten` (src/node.rs lines 172-176). -/
def TreeNode.flatten (t : TreeNode) : List (Nat × TreeNode) :=
  t.flatten_internal

/-- Keys of the flattened projection, in projection (row) order. -/
def flattenKeys (t : TreeNode) : List Nat :=
  t.flatten.map Prod.fst

/-- Spec-side visibility walk, written from the words of the spec: a
depth-first pre-order walk over a sibling list in which a node is
emitted exactly when its whole ancestor chain so far is `EXPANDED`
(`cond` carries that conjunction), and the chain is extended with the
node's own `EXPANDED` flag before visiting its children. -/
def chainVisible (cond : Bool) : List TreeNode → List (Nat × TreeNode)
  | [] => []
  | TreeNode.mk k fl len cs :: rest =>
    ((if cond then [(k, TreeNode.mk k fl len cs)] else []) ++
      chainVisible (cond && fl.expanded) cs) ++ chainVisible cond rest

/-- The claim C1/C2 reading of visibility: the ancestor chain *excluding*
the root must be `EXPANDED`, so the walk over the root's children starts
with the chain condition already satisfied. -/
def specVisibleExclRoot (t : TreeNode) : List (Nat × TreeNode) :=
  chainVisible true t.children

/-- The amended reading: the ancestor chain *including* the root must be
`EXPANDED`, so the walk over the root's children starts with the root's
own `EXPANDED` flag. -/
def specVisibleInclRoot (t : TreeNode) : List (Nat × TreeNode) :=
  chainVisible t.flags.expanded t.children

/-- True when no node of the list (nor any descendant) carries the
`ROOT` flag: in every tree built through `TreeNode::root*` only the
sentinel root is flagged `ROOT`. -/
def noRootIn : List TreeNode → Bool
  | [] => true
  | TreeNode.mk _ fl _ cs :: rest =>
    (!fl.root && noRootIn cs) && noRootIn rest

/-- Replace the element at position `i` of a list (identity when out of
range): the pure counterpart of mutating one child slot in place. -/
def listModify (f : TreeNode → TreeNode) : Nat → List TreeNode → List TreeNode
  | _, [] => []
  | 0, c :: rest => f c :: rest
  | n + 1, c :: rest => c :: listModify f n rest

/-- Walk from a node down a path of sibling indices; `none` when the
path leaves the tree.  A path plays the role of the chain of `Rc`
links from the root to a node. -/
def nodeAt : TreeNode → List Nat → Option TreeNode
  | t, [] => some t
  | t, i :: p =>
    match t.children.get? i with
    | some c => nodeAt c p
    | none => none

/-- Rebuild the tree with `f` applied to the node at `p` (identity when
the path leaves the tree): the pure counterpart of mutating a node
reached through the flat map. -/
def updateAt : List Nat → (TreeNode → TreeNode) → TreeNode → TreeNode
  | [], f, t => f t
  | i :: p, f, TreeNode.mk k fl len cs =>
    TreeNode.mk k fl len (listModify (updateAt p f) i cs)

/-- The `combined_len` fold of `TreeNode::insert_inner` (src/node.rs
lines 131-133): `children.iter().fold(0, |a, b| a + 1 + b.children_len)`,
written as a direct sum (the fold of this function over `Nat` computes
the same value in the same order up to associativity). -/
def combinedLen : List TreeNode → Nat
  | [] => 0
  | c :: rest => 1 + c.childrenLen + combinedLen rest

/-- `TreeNode::insert` = `insert_inner(children, update_parent = true)`
(src/node.rs lines 126-158), addressed by path: the target node at `p`
appends the new children and adds `combined_len` to its own
`children_len`, and every node above it on the path (the parent chain
up to and including the root, where the upward walk breaks) adds the
same `combined_len` delta.  In the Rust code the target updates itself
first and the loop then walks `parent` links, stopping after updating
the first `ROOT`-flagged node; for trees whose only `ROOT` flag is at
the top this is exactly the path from the root to the target. -/
def insertAt : TreeNode → List Nat → List TreeNode → TreeNode
  | TreeNode.mk k fl len cs, [], new =>
    TreeNode.mk k fl (len + combinedLen new) (cs ++ new)
  | TreeNode.mk k fl len cs, i :: p, new =>
    TreeNode.mk k fl (len + combinedLen new)
      (listModify (fun c => insertAt c p new) i cs)

/-- The subtree-size consistency of a child list: every node stores
`children_len` equal to the sum over its direct children of
`1 + child.children_len`, recursively. -/
def sizeOkChildren : List TreeNode → Bool
  | [] => true
  | TreeNode.mk _ _ len cs :: rest =>
    ((len == combinedLen cs) && sizeOkChildren cs) && sizeOkChildren rest

/-- Subtree-size consistency of a whole tree. -/
def sizeOkB (t : TreeNode) : Bool :=
  match t with
  | TreeNode.mk _ _ len cs => (len == combinedLen cs) && sizeOkChildren cs

/-- `pathExpanded t p` holds when every node from `t` down to the
*parent* of the node addressed by `p` carries `EXPANDED` (and the path
stays inside the tree): together with `noRootIn` this is exactly what
makes the addressed node appear in the flattened projection. -/
def pathExpanded : TreeNode → List Nat → Bool
  | _, [] => true
  | t, i :: p =>
    t.flags.expanded &&
      (match t.children.get? i with
       | some c => pathExpanded c p
       | none => false)

/-- `TreeCursor` of src/iter.rs: a node together with its offset among
its siblings. -/
structure TreeCursor where
  offset : Nat
  node : TreeNode

mutual

/-- `TreeNode::find_by_index_internal` (src/node.rs lines 202-233),
entry: start the child loop at `offset = 0`.  `Except.error` models the
`panic!("Index not available")` abort. -/
def fbiMain (t : TreeNode) (index : Nat) : Except String TreeCursor :=
  fbiGo t t.children 0 index
termination_by (index, 1, 0)

/-- The child loop of `find_by_index_internal`.  Per the source: answer
when `offset == index`; otherwise advance the offset past the child and,
when the child's flags contain both `EXPANDED` and `LOADING`
(`contains` of a union of bitflags requires *all* bits) and
`offset + child.children_len >= index`, recurse into `self` (not the
child) with target `index - offset`.  The inner `if` guard models the
`usize` underflow panic of `index - offset`; it is unreachable because
the loop keeps `offset <= index`. -/
def fbiGo (t : TreeNode) (cs : List TreeNode) (offset index : Nat) :
    Except String TreeCursor :=
  match cs with
  | [] => Except.error "Index not available"
  | c :: rest =>
    if offset == index then Except.ok ⟨offset, c⟩
    else
      let offset2 := offset + 1
      if !(c.flags.expanded && c.flags.loading) then
        fbiGo t rest offset2 index
      else if offset2 + c.childrenLen ≥ index then
        if _h : offset2 ≤ index then fbiMain t (index - offset2)
        else Except.error "attempt to subtract with overflow"
      else fbiGo t rest offset2 index
termination_by (index, 0, cs.length)

end

/-- `TreeNode::find_by_index` (src/node.rs lines 196-200): run the
internal search with an empty cursor stack; the stack receives at most
one push (the `offset == index` case) before returning, so the result
is the singleton stack of that cursor. -/
def TreeNode.find_by_index (t : TreeNode) (index : Nat) :
    Except String (List TreeCursor) :=
  (fbiMain t index).map (fun c => [c])

/-- `TreeCursor::next_sibling` (src/iter.rs lines 62-80).  The source
looks up `parent.children.get_index(offset + 1)` and builds
`Some(TreeCursor { node, offset + 1 })`, but that expression is
terminated with a semicolon inside the `if let`, so its value is
discarded and the function always falls through to the final `None`.
The dead parent lookup is elided; the observable behaviour is the
constant `none`. -/
def TreeCursor.next_sibling (_ : TreeCursor) : Option TreeCursor :=
  none

/-- The ascend-and-resume loop of `TreeNodeIterator::next`
(src/iter.rs lines 42-49): pop frames, and when some remaining top
frame has a next sibling, replace that frame with the sibling. -/
def popLoop : List TreeCursor → List TreeCursor
  | [] => []
  | parent :: rest =>
    match parent.next_sibling with
    | some sib => sib :: rest
    | none => popLoop rest

/-- `TreeNodeIterator::next` (src/iter.rs lines 18-52) acting on the
cursor stack (head of the list = top of the `Vec`): descend into the
first child when the top node is `EXPANDED` and has one, else push the
top frame's next sibling, else pop and ascend; in every case the
original top node is yielded.  The `range` field of the iterator is
stored but never consulted by `next`. -/
def iterNext : List TreeCursor → Option TreeNode × List TreeCursor
  | [] => (none, [])
  | frame :: rest =>
    match (if frame.node.flags.expanded then frame.node.children.head? else none) with
    | some child => (some frame.node, ⟨0, child⟩ :: frame :: rest)
    | none =>
      match frame.next_sibling with
      | some sib => (some frame.node, sib :: frame :: rest)
      | none => (some frame.node, popLoop rest)

/-- Drive the iterator up to `fuel` steps, collecting the yielded
nodes in order (the sequence is finite: `next` returns `none` on an
empty stack). -/
def iterCollect : Nat → List TreeCursor → List TreeNode
  | 0, _ => []
  | fuel + 1, st =>
    match iterNext st with
    | (none, _) => []
    | (some n, st') => n :: iterCollect fuel st'

/-- `TreeNode::slice(range)` followed by collecting every `next()`
result (src/node.rs line 241, src/iter.rs lines 13-16): seed the stack
with `find_by_index(range.start)` and iterate.  Returns the keys of the
yielded nodes; `Except.error` propagates the seek panic. -/
def sliceKeys (t : TreeNode) (start fuel : Nat) : Except String (List Nat) :=
  (t.find_by_index start).map (fun st => (iterCollect fuel st).map TreeNode.key)

/-- Subscriber notifications of src/dynamic.rs: `update_all` or
`update_item(key)`. -/
inductive Note : Type where
  | all : Note
  | item (key : Nat) : Note
deriving DecidableEq, Repr

/-- Outcome of `provider.expand`: `TreeExpandResult::Ready` or the
pending (`Async`/`Loading`) case. -/
inductive ProvOutcome : Type where
  | ready : ProvOutcome
  | async : ProvOutcome

/-- The `DynamicTree` controller state (src/dynamic.rs): the root, the
authoritative flattened projection, the stream of notifications issued
so far (a log standing in for the subscriber callbacks), and the number
of `provider.expand` calls made. -/
structure DT where
  root : TreeNode
  flat : List (Nat × TreeNode)
  notes : List Note
  provCalls : Nat

/-- `DynamicTree::count` (src/dynamic.rs lines 178-180). -/
def DT.count (s : DT) : Nat :=
  s.flat.length

/-- `DynamicTree::item` (src/dynamic.rs lines 167-169):
`flat.get_index(index).unwrap()`; the `unwrap` on a missing index is an
uncontrolled panic, modelled as `Except.error`. -/
def DT.item (s : DT) (index : Nat) : Except String TreeNode :=
  match s.flat.get? index with
  | some kv => Except.ok kv.2
  | none => Except.error "called Option.unwrap() on a None value"

/-- Does the flat projection contain the key (the lookup behind
`get_item`). -/
def keyInFlat (flat : List (Nat × TreeNode)) (k : Nat) : Bool :=
  flat.any (fun kv => kv.1 == k)

/-- Clear `EXPANDED` (the collapse branch of `DynamicTree::expand`). -/
def collapseNode (n : TreeNode) : TreeNode :=
  n.set_flags { n.flags with expanded := false }

/-- Set `EXPANDED` (the fast re-expand branch). -/
def reexpandNode (n : TreeNode) : TreeNode :=
  n.set_flags { n.flags with expanded := true }

/-- Set `EXPANDED` and `READY` (the synchronous provider branch). -/
def readyNode (n : TreeNode) : TreeNode :=
  n.set_flags { n.flags with expanded := true, ready := true }

/-- Toggle `LOADING` (the pending provider branch). -/
def toggleLoadingNode (n : TreeNode) : TreeNode :=
  n.set_flags { n.flags with loading := !n.flags.loading }

/-- Clear `LOADING`, set `EXPANDED` and `READY` (the successful
resolution of a pending expansion).  The Rust closure applies these
edits to the flag word captured when the request was issued; absent
interleaved writes to the same node that equals the flag word read at
resolution time, which is what this models. -/
def resolveNode (n : TreeNode) : TreeNode :=
  n.set_flags { n.flags with loading := false, expanded := true, ready := true }

/-- `DynamicTree::expand` (src/dynamic.rs lines 91-157), addressed by
the path `p` of the clicked node (`get_item` resolves a key to the node
through the flat map — or to the root itself for the root key — and the
path is that node's location; the membership guard reproduces the
`flat.get(&key).unwrap()` panic).  Branches, in source order: not
`EXPANDABLE` is a no-op; `EXPANDED` collapses, re-flattens and notifies
all; `READY` re-expands, re-flattens and notifies all, without calling
the provider; otherwise the provider is called — a `Ready` result sets
`EXPANDED | READY`, re-flattens and notifies all (any synchronous child
insertion done by the provider itself is outside this model), while a
pending result toggles `LOADING` and notifies only the single item,
leaving the projection untouched. -/
def DT.expand (out : ProvOutcome) (s : DT) (p : List Nat) : Except String DT :=
  match nodeAt s.root p with
  | none => Except.error "called Option.unwrap() on a None value"
  | some n =>
    if !p.isEmpty && !keyInFlat s.flat n.key then
      Except.error "called Option.unwrap() on a None value"
    else if !n.flags.expandable then
      Except.ok s
    else if n.flags.expanded then
      let root2 := updateAt p collapseNode s.root
      Except.ok ⟨root2, root2.flatten, s.notes ++ [Note.all], s.provCalls⟩
    else if n.flags.ready then
      let root2 := updateAt p reexpandNode s.root
      Except.ok ⟨root2, root2.flatten, s.notes ++ [Note.all], s.provCalls⟩
    else
      match out with
      | ProvOutcome.ready =>
        let root2 := updateAt p readyNode s.root
        Except.ok ⟨root2, root2.flatten, s.notes ++ [Note.all], s.provCalls + 1⟩
      | ProvOutcome.async =>
        Except.ok ⟨updateAt p toggleLoadingNode s.root, s.flat,
          s.notes ++ [Note.item n.key], s.provCalls + 1⟩

/-- The spawned resolution of a pending expansion (src/dynamic.rs lines
138-154).  `job.await.unwrap_throw()` aborts the task on a failed
result before touching any state: modelled by `Except.error`.  On
success: apply the captured flag edits (clear `LOADING`, set
`EXPANDED | READY`), `insert` the children (with the `children_len`
delta propagated up the parent chain), rebuild the projection and
notify all subscribers. -/
def DT.expandResolve (s : DT) (p : List Nat) (result : Except Unit (List TreeNode)) :
    Except String DT :=
  match result with
  | Except.error _ => Except.error "unwrap_throw failed: pending expansion returned Err"
  | Except.ok cs =>
    let root2 := insertAt (updateAt p resolveNode s.root) p cs
    Except.ok ⟨root2, root2.flatten, s.notes ++ [Note.all], s.provCalls⟩

/-- `first_visible` of `TreeView::update` (src/view.rs line 195):
`offset / item_height` (integer division, i.e. floor). -/
def firstVisible (offset itemHeight : Nat) : Nat :=
  offset / itemHeight

/-- `visible_count` of `TreeView::update` (src/view.rs line 196):
`size.1 / item_height + 2` — floor division of the viewport height by
the row height, plus an overscan of 2. -/
def visibleCount (height itemHeight : Nat) : Nat :=
  height / itemHeight + 2

/-- The clamped right end of the rendered range (src/view.rs line 207):
`count.min(first_visible + visible_count)`. -/
def rangeRight (count offset height itemHeight : Nat) : Nat :=
  min count (firstVisible offset itemHeight + visibleCount height itemHeight)

/-- The row indices visited by the render loop of `TreeView::update`
(src/view.rs lines 208-212): `first_visible..right`. -/
def renderedRows (count offset height itemHeight : Nat) : List Nat :=
  List.range' (firstVisible offset itemHeight)
    (rangeRight count offset height itemHeight - firstVisible offset itemHeight)

/-- Sum of the stored `children_len` over a list of nodes (the claim
C9 reading of "sum of subtree_size over its direct children"). -/
def sumChildLen : List TreeNode → Nat
  | [] => 0
  | c :: rest => c.childrenLen + sumChildLen rest

/-- The claim C9 formula applied at every node of a child list:
`children_len == 1 + Σ child.children_len` over the direct children,
recursively. -/
def claimSizeChildren : List TreeNode → Bool
  | [] => true
  | TreeNode.mk _ _ len cs :: rest =>
    ((len == 1 + sumChildLen cs) && claimSizeChildren cs) && claimSizeChildren rest

/-- The claim C9 formula at every node of a tree, root included. -/
def claimSizeB (t : TreeNode) : Bool :=
  match t with
  | TreeNode.mk _ _ len cs => (len == 1 + sumChildLen cs) && claimSizeChildren cs

/-- Ceiling division, the claim C10 reading of `visible_count`. -/
def ceilDiv (a b : Nat) : Nat :=
  (a + b - 1) / b

/-- Example: a fresh root (flags = `ROOT` only, exactly as
`TreeNode::root_with_data` creates it) holding one plain child. -/
def exRootPlain : TreeNode :=
  TreeNode.mk 999 { root := true } 1 [TreeNode.mk 7 {} 0 []]

/-- Example: a fresh root holding one plain child (claim C2 input). -/
def exRootChild : TreeNode :=
  TreeNode.mk 998 { root := true } 1 [TreeNode.mk 5 {} 0 []]

/-- Example: an expanded root with an expanded folder `1` holding leaf
`11`, followed by leaf `2`.  Visible rows: `[1, 11, 2]`. -/
def exSeek : TreeNode :=
  TreeNode.mk 997 { root := true, expanded := true } 3
    [TreeNode.mk 1 { expanded := true, expandable := true } 1
      [TreeNode.mk 11 {} 0 []],
     TreeNode.mk 2 {} 0 []]

/-- Example: an expanded root with two collapsed leaves.  Visible rows:
`[1, 2]`. -/
def exTwoLeaves : TreeNode :=
  TreeNode.mk 996 { root := true, expanded := true } 2
    [TreeNode.mk 1 {} 0 [], TreeNode.mk 2 {} 0 []]

/-- Example: a fresh root with no children; its projection is empty. -/
def exEmptyRoot : TreeNode :=
  TreeNode.mk 995 { root := true } 0 []

/-- Controller over the empty tree: `count() = 0`. -/
def exEmptyDT : DT :=
  ⟨exEmptyRoot, exEmptyRoot.flatten, [], 0⟩

/-- Example: an expanded root with a single expandable, unloaded child
`3` (the async-expansion scenario of claims C6 and C7). -/
def exAsyncRoot : TreeNode :=
  TreeNode.mk 994 { root := true, expanded := true } 1
    [TreeNode.mk 3 { expandable := true } 0 []]

/-- Controller over `exAsyncRoot`, before any request. -/
def exAsyncDT : DT :=
  ⟨exAsyncRoot, exAsyncRoot.flatten, [], 0⟩

/-- The children delivered by the pending expansion of node `3`. -/
def exAsyncChildren : List TreeNode :=
  [TreeNode.mk 31 {} 0 [], TreeNode.mk 32 {} 0 []]

/-- Example: an expanded root whose first child `6` is `EXPANDED`,
`READY` and expandable with one loaded leaf `61`; second child `8` is a
plain leaf (the collapse/re-expand round-trip scenario of claim C8). -/
def exRoundRoot : TreeNode :=
  TreeNode.mk 992 { root := true, expanded := true } 3
    [TreeNode.mk 6 { expanded := true, ready := true, expandable := true } 1
      [TreeNode.mk 61 {} 0 []],
     TreeNode.mk 8 {} 0 []]

/-- Controller over `exRoundRoot`. -/
def exRoundDT : DT :=
  ⟨exRoundRoot, exRoundRoot.flatten, [], 0⟩

/-- A fresh root with nothing inserted yet (claim C9 input). -/
def exSizeRoot : TreeNode :=
  TreeNode.mk 991 { root := true } 0 []

/-- Two plain leaves inserted into the fresh root through
`TreeNode::insert`. -/
def exSizeTree : TreeNode :=
  insertAt exSizeRoot [] [TreeNode.mk 8 {} 0 [], TreeNode.mk 9 {} 0 []]

theorem flattenList_nil : flattenList [] = [] := by
  simp [flattenList]

theorem flattenList_cons (c : TreeNode) (rest : List TreeNode) :
    flattenList (c :: rest) = c.flatten_internal ++ flattenList rest := by
  cases c
  simp [flattenList, TreeNode.flatten_internal, TreeNode.key, TreeNode.flags,
    TreeNode.children]

theorem flattenList_append (xs ys : List TreeNode) :
    flattenList (xs ++ ys) = flattenList xs ++ flattenList ys := by
  induction xs with
  | nil => simp [flattenList_nil]
  | cons c rest ih =>
    simp [flattenList_cons, ih]

theorem chainVisible_nil (cond : Bool) : chainVisible cond [] = [] := by
  simp [chainVisible]

theorem chainVisible_cons (cond : Bool) (c : TreeNode) (rest : List TreeNode) :
    chainVisible cond (c :: rest) =
      ((if cond then [(c.key, c)] else []) ++
        chainVisible (cond && c.flags.expanded) c.children) ++
        chainVisible cond rest := by
  cases c
  simp [chainVisible, TreeNode.key, TreeNode.flags, TreeNode.children]

theorem noRootIn_cons (c : TreeNode) (rest : List TreeNode) :
    noRootIn (c :: rest) =
      ((!c.flags.root && noRootIn c.children) && noRootIn rest) := by
  cases c
  simp [noRootIn, TreeNode.flags, TreeNode.children]

/-- With the chain condition already false, nothing deeper is ever
emitted. -/
theorem chainVisible_false : ∀ cs : List TreeNode, chainVisible false cs = []
  | [] => by simp [chainVisible]
  | TreeNode.mk k fl len cs :: rest => by
    have h1 := chainVisible_false cs
    have h2 := chainVisible_false rest
    simp [chainVisible_cons, h1, h2, TreeNode.flags, TreeNode.children]

/-- With the chain condition satisfied, the spec-side walk and the
code's flatten agree on any list of non-`ROOT` subtrees. -/
theorem chainVisible_true_eq : ∀ cs : List TreeNode, noRootIn cs = true →
    chainVisible true cs = flattenList cs
  | [], _ => by simp [chainVisible, flattenList_nil]
  | TreeNode.mk k fl len cs :: rest, h => by
    rw [noRootIn_cons] at h
    simp only [TreeNode.flags, TreeNode.children, Bool.and_eq_true,
      Bool.not_eq_true'] at h
    obtain ⟨⟨hroot, hcs⟩, hrest⟩ := h
    have h2 := chainVisible_true_eq rest hrest
    rw [chainVisible_cons, flattenList_cons]
    simp only [TreeNode.flatten_internal, TreeNode.key, TreeNode.flags,
      TreeNode.children, hroot, Bool.true_and, if_true, if_false,
      Bool.false_eq_true]
    cases hexp : fl.expanded with
    | true =>
      have h1 := chainVisible_true_eq cs hcs
      simp [h1, h2]
    | false =>
      simp [chainVisible_false, h2]

/-- A non-`ROOT` member of a sibling list contributes its own key to
the flattening of that list. -/
theorem key_mem_flattenList_of_mem : ∀ {c : TreeNode} {cs : List TreeNode},
    c ∈ cs → c.flags.root = false → c.key ∈ (flattenList cs).map Prod.fst := by
  intro c cs hmem hroot
  induction cs with
  | nil => cases hmem
  | cons d rest ih =>
    rw [flattenList_cons]
    rcases List.mem_cons.mp hmem with heq | htail
    · subst heq
      simp [TreeNode.flatten_internal, hroot]
    · simp [ih htail]

/-- Claim C1, amended: for a root-flagged tree none of whose descendants
carries `ROOT`, `flatten` produces exactly the depth-first pre-order
listing of the nodes whose entire ancestor chain *including the root*
carries `EXPANDED`: the root is excluded from the output, each node
precedes its descendants in sibling (insertion) order, and children are
visited only when the current node carries `EXPANDED` — the root's own
`EXPANDED` flag gating its children like any other node's. -/
theorem claim_c1_flatten_visible (t : TreeNode)
    (hroot : t.flags.root = true) (hwf : noRootIn t.children = true) :
    t.flatten = specVisibleInclRoot t := by
  rw [TreeNode.flatten, TreeNode.flatten_internal, specVisibleInclRoot, hroot]
  cases hexp : t.flags.expanded with
  | true => simp [chainVisible_true_eq t.children hwf]
  | false => simp [chainVisible_false]

/-- Witness for claim C1 at the concrete tree `exSeek`. -/
theorem claim_c1_witness : exSeek.flatten = specVisibleInclRoot exSeek :=
  claim_c1_flatten_visible exSeek rfl
    (by simp [exSeek, noRootIn, TreeNode.flags, TreeNode.children])

/-- Counterexample to claim C1 as stated: on a fresh root (flags =
`ROOT` only, exactly what `TreeNode::root_with_data` produces) holding
one plain child, `flatten` returns the empty mapping, while the set of
nodes whose ancestor chain *excluding the root* is all-`EXPANDED`
contains the child (its chain below the root is empty). -/
theorem claim_c1_counterexample :
    TreeNode.flatten exRootPlain ≠ specVisibleExclRoot exRootPlain := by
  intro h
  simp [TreeNode.flatten, TreeNode.flatten_internal, exRootPlain,
    specVisibleExclRoot, chainVisible_cons, chainVisible_nil,
    TreeNode.flags, TreeNode.children, TreeNode.key] at h

/-- Claim C2, amended: a direct child of the root appears in the
flattened projection exactly when the root itself carries the
`EXPANDED` flag.  The `ROOT` flag only excludes the root from the
output; it does not make the root behave as permanently expanded, so
visibility depends on the `EXPANDED` flags of all ancestors *including*
the root. -/
theorem claim_c2_child_iff_root_expanded (t c : TreeNode)
    (hroot : t.flags.root = true) (hmem : c ∈ t.children)
    (hcroot : c.flags.root = false) :
    c.key ∈ flattenKeys t ↔ t.flags.expanded = true := by
  rw [flattenKeys, TreeNode.flatten, TreeNode.flatten_internal, hroot]
  cases hexp : t.flags.expanded with
  | true => simp [key_mem_flattenList_of_mem hmem hcroot]
  | false => simp

/-- Witness for claim C2: in `exSeek` (root expanded) the direct child
with key `1` is visible. -/
theorem claim_c2_witness : 1 ∈ flattenKeys exSeek := by
  have h := claim_c2_child_iff_root_expanded exSeek
    (TreeNode.mk 1 { expanded := true, expandable := true } 1
      [TreeNode.mk 11 {} 0 []])
    rfl (List.Mem.head _) rfl
  exact h.mpr rfl

/-- Counterexample to claim C2 as stated: `exRootChild` is a fresh root
(as built by `TreeNode::root_with_data`, flags = `ROOT` only) with one
direct child of key `5`, yet the flattened projection is empty — the
child does not appear, because `flatten_internal` tests the root's own
`EXPANDED` flag before visiting its children. -/
theorem claim_c2_counterexample :
    exRootChild.children.map TreeNode.key = [5] ∧ flattenKeys exRootChild = [] := by
  constructor
  · simp [exRootChild, TreeNode.children, TreeNode.key]
  · simp [flattenKeys, TreeNode.flatten, TreeNode.flatten_internal,
      exRootChild, TreeNode.flags]

theorem combinedLen_append (xs ys : List TreeNode) :
    combinedLen (xs ++ ys) = combinedLen xs + combinedLen ys := by
  induction xs with
  | nil => simp [combinedLen]
  | cons c rest ih => simp [combinedLen, ih]; omega

theorem sizeOkChildren_cons (c : TreeNode) (rest : List TreeNode) :
    sizeOkChildren (c :: rest) = (sizeOkB c && sizeOkChildren rest) := by
  cases c
  simp [sizeOkChildren, sizeOkB]

theorem sizeOkChildren_append (xs ys : List TreeNode) :
    sizeOkChildren (xs ++ ys) = (sizeOkChildren xs && sizeOkChildren ys) := by
  induction xs with
  | nil => simp [sizeOkChildren]
  | cons c rest ih =>
    simp [sizeOkChildren_cons, ih, Bool.and_assoc]


/-- Decompose a list at a position known to hold an element. -/
theorem list_split_of_get? : ∀ {cs : List TreeNode} {i : Nat} {c : TreeNode},
    cs.get? i = some c → cs = cs.take i ++ c :: cs.drop (i + 1) := by
  intro cs
  induction cs with
  | nil => intro i c h; cases i <;> simp [List.get?] at h
  | cons d rest ih =>
    intro i c h
    cases i with
    | zero =>
      simp only [List.get?_cons_zero, Option.some.injEq] at h
      subst h
      simp
    | succ j =>
      simp only [List.get?_cons_succ] at h
      have h2 := ih h
      simpa using congrArg (d :: ·) h2

/-- `listModify` rewrites the decomposition at the modified slot. -/
theorem listModify_eq_of_get? (f : TreeNode → TreeNode) :
    ∀ {cs : List TreeNode} {i : Nat} {c : TreeNode},
    cs.get? i = some c →
    listModify f i cs = cs.take i ++ f c :: cs.drop (i + 1) := by
  intro cs
  induction cs with
  | nil => intro i c h; cases i <;> simp [List.get?] at h
  | cons d rest ih =>
    intro i c h
    cases i with
    | zero =>
      simp only [List.get?_cons_zero, Option.some.injEq] at h
      subst h
      simp [listModify]
    | succ j =>
      simp only [List.get?_cons_succ] at h
      have h2 := ih h
      simp [listModify, h2]

/-- Claim C9, amended: inserting a list of size-consistent subtrees at
any existing node preserves the subtree-size invariant of the whole
tree — for every node, `children_len` equals the sum over its direct
children of `1 + child.children_len` (equivalently: the subtree size
counted *including* a node is one plus the sum of its children's) — and
the combined delta of the inserted children is added to the target node
and to every ancestor on the path, the root included: the tree's own
`children_len` grows by exactly `combined_len`, so the root is
size-tracked like every other ancestor. -/
theorem claim_c9_insert_preserves_sizes :
    ∀ (p : List Nat) (t n : TreeNode) (new : List TreeNode),
    nodeAt t p = some n → sizeOkB t = true → sizeOkChildren new = true →
    sizeOkB (insertAt t p new) = true ∧
      (insertAt t p new).childrenLen = t.childrenLen + combinedLen new := by
  intro p
  induction p with
  | nil =>
    intro t n new _ hok hnew
    cases t with
    | mk k fl len cs =>
      have hins : insertAt (TreeNode.mk k fl len cs) [] new =
          TreeNode.mk k fl (len + combinedLen new) (cs ++ new) := by
        rw [insertAt]
      simp only [sizeOkB, Bool.and_eq_true, beq_iff_eq] at hok
      obtain ⟨hlen, hcs⟩ := hok
      rw [hins]
      constructor
      · simp only [sizeOkB, Bool.and_eq_true, beq_iff_eq]
        exact ⟨by rw [combinedLen_append, hlen],
          by rw [sizeOkChildren_append, hcs, hnew]; rfl⟩
      · simp [TreeNode.childrenLen]
  | cons i p ih =>
    intro t n new hat hok hnew
    cases t with
    | mk k fl len cs =>
      rw [nodeAt] at hat
      simp only [TreeNode.children] at hat
      cases hget : cs.get? i with
      | none => rw [hget] at hat; simp at hat
      | some c =>
        rw [hget] at hat
        have hins : insertAt (TreeNode.mk k fl len cs) (i :: p) new =
            TreeNode.mk k fl (len + combinedLen new)
              (listModify (fun c => insertAt c p new) i cs) := by
          rw [insertAt]
        simp only [sizeOkB, Bool.and_eq_true, beq_iff_eq] at hok
        obtain ⟨hlen, hcs⟩ := hok
        have hsplit := list_split_of_get? hget
        have hmod := listModify_eq_of_get? (fun c => insertAt c p new) hget
        have hcs2 : sizeOkChildren (cs.take i ++ c :: cs.drop (i + 1)) = true := by
          rw [← hsplit]; exact hcs
        rw [sizeOkChildren_append, sizeOkChildren_cons] at hcs2
        simp only [Bool.and_eq_true] at hcs2
        obtain ⟨htake, hc, hdrop⟩ := hcs2
        obtain ⟨hcok, hclen⟩ := ih c n new hat hc hnew
        have hcomb : combinedLen cs = combinedLen (cs.take i) +
            (1 + c.childrenLen + combinedLen (cs.drop (i + 1))) := by
          conv_lhs => rw [hsplit]
          rw [combinedLen_append, combinedLen]
        rw [hins]
        constructor
        · simp only [sizeOkB, Bool.and_eq_true, beq_iff_eq]
          constructor
          · rw [hmod, combinedLen_append, combinedLen, hclen, hlen, hcomb]
            omega
          · rw [hmod, sizeOkChildren_append, sizeOkChildren_cons]
            simp [htake, hcok, hdrop]
        · simp [TreeNode.childrenLen]

/-- Witness for claim C9: insert one leaf under the first child of
`exSeek`. -/
theorem claim_c9_witness :
    sizeOkB (insertAt exSeek [0] [TreeNode.mk 21 {} 0 []]) = true ∧
      (insertAt exSeek [0] [TreeNode.mk 21 {} 0 []]).childrenLen =
        exSeek.childrenLen + combinedLen [TreeNode.mk 21 {} 0 []] :=
  claim_c9_insert_preserves_sizes [0] exSeek
    (TreeNode.mk 1 { expanded := true, expandable := true } 1
      [TreeNode.mk 11 {} 0 []])
    [TreeNode.mk 21 {} 0 []]
    (by rfl)
    (by simp [exSeek, sizeOkB, sizeOkChildren, combinedLen,
      TreeNode.childrenLen])
    (by simp [sizeOkB, sizeOkChildren, combinedLen, TreeNode.childrenLen])

/-- Counterexample to claim C9 as stated: after inserting two leaves
into a fresh root, the formula `children_len == 1 + Σ child.children_len`
fails (at each leaf `0 ≠ 1`, and at the root `2 ≠ 1`), and the root's
own `children_len` did change from `0` to `2` — the root *is*
size-tracked, contrary to the claim — while the code's actual
invariant `children_len == Σ (1 + child.children_len)` holds. -/
theorem claim_c9_counterexample :
    claimSizeB exSizeTree = false ∧ exSizeTree.childrenLen = 2 ∧
      sizeOkB exSizeTree = true := by
  refine ⟨?_, ?_, ?_⟩ <;>
    simp [exSizeTree, exSizeRoot, insertAt, combinedLen, claimSizeB,
      claimSizeChildren, sumChildLen, TreeNode.childrenLen, sizeOkB,
      sizeOkChildren]

/-- Claim C10, amended: `TreeView::update` renders exactly the rows in
the clamped window `[firstVisible, min(totalRows, firstVisible +
visibleCount))` with `firstVisible = floor(scrollOffset / rowHeight)`
and `visibleCount = floor(viewportHeight / rowHeight) + overscan`
(overscan = 2) — floor, not ceiling, division of the viewport height.
The claim's concrete instances hold: viewport height 240 at row height
24 gives 10 + overscan rows, and scroll offset 480 gives
`firstVisible = 20`. -/
theorem claim_c10_window (count offset height rowHeight : Nat) :
    (∀ i : Nat, i ∈ renderedRows count offset height rowHeight ↔
      firstVisible offset rowHeight ≤ i ∧
        i < min count (firstVisible offset rowHeight +
          visibleCount height rowHeight)) ∧
    visibleCount 240 24 = 10 + 2 ∧ firstVisible 480 24 = 20 ∧
      firstVisible 0 24 = 0 := by
  refine ⟨?_, by decide, by decide, by decide⟩
  intro i
  rw [renderedRows, List.mem_range'_1, rangeRight]
  omega

/-- Counterexample to claim C10 as stated: at viewport height 250 and
row height 24, the code computes `250 / 24 + 2 = 12` visible rows,
while `ceil(250 / 24) + 2 = 13`: `visible_count` uses floor division
(`size.1 / self.item_height + 2`), not ceiling. -/
theorem claim_c10_counterexample :
    visibleCount 250 24 ≠ ceilDiv 250 24 + 2 := by
  decide

/-- Claim C3, evaluated at the failing input: in `exSeek` the visible
rows are `[1, 11, 2]`, so row 1 is the node with key `11`; but
`find_by_index(1)` returns the singleton cursor stack at the node with
key `2` (sibling offset 1) — not a path from the invocation node to the
node occupying visible row 1.  The loop skips the expanded child `1`
because `contains(EXPANDED | LOADING)` requires both bits, and the
descent branch recurses into `self` rather than the child, so the
returned stack can never hold more than one cursor. -/
theorem claim_c3_seek_returns_wrong_node :
    exSeek.find_by_index 1 = Except.ok [⟨1, TreeNode.mk 2 {} 0 []⟩] ∧
      flattenKeys exSeek = [1, 11, 2] := by
  constructor
  · simp [TreeNode.find_by_index, fbiMain, fbiGo, exSeek, TreeNode.children,
      TreeNode.flags, TreeNode.childrenLen, Except.map]
  · simp [flattenKeys, TreeNode.flatten, TreeNode.flatten_internal,
      flattenList, exSeek, TreeNode.children, TreeNode.flags, TreeNode.key]

/-- Claim C4, evaluated at the failing input: on a tree with two
visible sibling leaves, `slice(0..)` yields only the first leaf and
then stops: `TreeCursor::next_sibling` discards the cursor it computes
(the expression before the final `None` ends with a semicolon), so the
iterator can never move to a sibling and the sequence is truncated
after the first node with no expanded children, instead of continuing
with the remaining visible rows. -/
theorem claim_c4_iterator_truncates :
    sliceKeys exTwoLeaves 0 10 = Except.ok [1] ∧
      flattenKeys exTwoLeaves = [1, 2] := by
  constructor
  · simp [sliceKeys, TreeNode.find_by_index, fbiMain, fbiGo, exTwoLeaves,
      TreeNode.children, TreeNode.flags, TreeNode.childrenLen, iterCollect,
      iterNext, TreeCursor.next_sibling, popLoop, TreeNode.key, Except.map]
  · simp [flattenKeys, TreeNode.flatten, TreeNode.flatten_internal,
      flattenList, exTwoLeaves, TreeNode.children, TreeNode.flags,
      TreeNode.key]

/-- Claim C5, amended: out-of-range access panics instead of returning
a typed error.  `item(index)` with `index >= count()` hits the
`unwrap()` on a missing `get_index` and aborts; and seeking any index
in a node without children falls out of the child loop and aborts with
`panic!("Index not available")`.  No typed bounds error exists in the
code. -/
theorem claim_c5_out_of_range_panics :
    (∀ (s : DT) (i : Nat), DT.count s ≤ i →
      DT.item s i = Except.error "called Option.unwrap() on a None value") ∧
    (∀ (t : TreeNode) (i : Nat), t.children = [] →
      t.find_by_index i = Except.error "Index not available") := by
  constructor
  · intro s i h
    rw [DT.item, List.get?_eq_none.mpr h]
  · intro t i h
    rw [TreeNode.find_by_index, fbiMain, h]
    rw [fbiGo]
    rfl

/-- Witness for claim C5 at concrete inputs: `item(3)` on the empty
controller and a seek at index 2 in the childless root both abort. -/
theorem claim_c5_witness :
    DT.item exEmptyDT 3 = Except.error "called Option.unwrap() on a None value" ∧
      exEmptyRoot.find_by_index 2 = Except.error "Index not available" :=
  ⟨claim_c5_out_of_range_panics.1 exEmptyDT 3
      (by simp [DT.count, exEmptyDT, exEmptyRoot, TreeNode.flatten,
        TreeNode.flatten_internal, TreeNode.flags]),
    claim_c5_out_of_range_panics.2 exEmptyRoot 2 rfl⟩

/-- Counterexample to claim C5 as stated: `item(0)` on the empty
projection does not surface a typed out-of-range error — it takes the
`unwrap()` panic (modelled as the `Except.error` carrying the panic
message), an uncontrolled abort of the caller's control flow. -/
theorem claim_c5_counterexample :
    DT.item exEmptyDT 0 = Except.error "called Option.unwrap() on a None value" := by
  simp [DT.item, exEmptyDT, exEmptyRoot, TreeNode.flatten,
    TreeNode.flatten_internal, TreeNode.flags]

theorem key_set_flags (n : TreeNode) (fl : TreeFlags) :
    (n.set_flags fl).key = n.key := by
  cases n; rfl

theorem flags_set_flags (n : TreeNode) (fl : TreeFlags) :
    (n.set_flags fl).flags = fl := by
  cases n; rfl

theorem children_set_flags (n : TreeNode) (fl : TreeFlags) :
    (n.set_flags fl).children = n.children := by
  cases n; rfl

theorem childrenLen_set_flags (n : TreeNode) (fl : TreeFlags) :
    (n.set_flags fl).childrenLen = n.childrenLen := by
  cases n; rfl
theorem nodeAt_nil (t : TreeNode) : nodeAt t [] = some t := rfl

theorem nodeAt_cons (t : TreeNode) (i : Nat) (p : List Nat) :
    nodeAt t (i :: p) =
      match t.children.get? i with
      | some c => nodeAt c p
      | none => none := rfl

theorem updateAt_nil (f : TreeNode → TreeNode) (t : TreeNode) :
    updateAt [] f t = f t := rfl

theorem updateAt_cons (f : TreeNode → TreeNode) (i : Nat) (p : List Nat)
    (k : Nat) (fl : TreeFlags) (len : Nat) (cs : List TreeNode) :
    updateAt (i :: p) f (TreeNode.mk k fl len cs) =
      TreeNode.mk k fl len (listModify (updateAt p f) i cs) := rfl

theorem pathExpanded_nil (t : TreeNode) : pathExpanded t [] = true := rfl

theorem pathExpanded_cons (t : TreeNode) (i : Nat) (p : List Nat) :
    pathExpanded t (i :: p) =
      (t.flags.expanded &&
        match t.children.get? i with
        | some c => pathExpanded c p
        | none => false) := rfl

theorem insertAt_nil (k : Nat) (fl : TreeFlags) (len : Nat)
    (cs new : List TreeNode) :
    insertAt (TreeNode.mk k fl len cs) [] new =
      TreeNode.mk k fl (len + combinedLen new) (cs ++ new) := by
  rw [insertAt]

theorem insertAt_cons (k : Nat) (fl : TreeFlags) (len : Nat)
    (cs new : List TreeNode) (i : Nat) (p : List Nat) :
    insertAt (TreeNode.mk k fl len cs) (i :: p) new =
      TreeNode.mk k fl (len + combinedLen new)
        (listModify (fun c => insertAt c p new) i cs) := by
  rw [insertAt]

theorem listModify_get?_self (f : TreeNode → TreeNode) :
    ∀ (i : Nat) (cs : List TreeNode),
    (listModify f i cs).get? i = (cs.get? i).map f := by
  intro i
  induction i with
  | zero => intro cs; cases cs <;> simp [listModify]
  | succ j ih =>
    intro cs
    cases cs with
    | nil => simp [listModify]
    | cons d rest =>
      simp only [listModify, List.get?_cons_succ]
      exact ih rest

theorem listModify_comp (f g : TreeNode → TreeNode) :
    ∀ (i : Nat) (cs : List TreeNode),
    listModify f i (listModify g i cs) = listModify (fun x => f (g x)) i cs := by
  intro i
  induction i with
  | zero => intro cs; cases cs <;> simp [listModify]
  | succ j ih =>
    intro cs
    cases cs with
    | nil => simp [listModify]
    | cons d rest =>
      simp only [listModify, List.cons.injEq, true_and]
      exact ih rest

/-- Applying `f` at path `p` leaves the node found at `p` equal to `f`
of the original. -/
theorem nodeAt_updateAt (f : TreeNode → TreeNode) :
    ∀ (p : List Nat) (t n : TreeNode),
    nodeAt t p = some n → nodeAt (updateAt p f t) p = some (f n) := by
  intro p
  induction p with
  | nil =>
    intro t n h
    rw [nodeAt_nil] at h
    cases h
    rfl
  | cons i p ih =>
    intro t n h
    cases t with
    | mk k fl len cs =>
      rw [nodeAt_cons] at h
      simp only [TreeNode.children] at h
      cases hget : cs.get? i with
      | none => rw [hget] at h; simp at h
      | some c =>
        rw [hget] at h
        rw [updateAt_cons, nodeAt_cons]
        simp only [TreeNode.children, listModify_get?_self, hget, Option.map]
        exact ih c n h

/-- Updating the node at the end of a path does not change whether the
path's ancestor chain is expanded (the final node's own flag is not
consulted). -/
theorem pathExpanded_updateAt (f : TreeNode → TreeNode) :
    ∀ (p : List Nat) (t : TreeNode),
    pathExpanded (updateAt p f t) p = pathExpanded t p := by
  intro p
  induction p with
  | nil => intro t; rfl
  | cons i p ih =>
    intro t
    cases t with
    | mk k fl len cs =>
      rw [updateAt_cons, pathExpanded_cons, pathExpanded_cons]
      simp only [TreeNode.flags, TreeNode.children, listModify_get?_self]
      cases hget : cs.get? i with
      | none => rfl
      | some c => simp only [Option.map, ih c]

theorem updateAt_comp (f g : TreeNode → TreeNode) :
    ∀ (p : List Nat) (t : TreeNode),
    updateAt p f (updateAt p g t) = updateAt p (fun x => f (g x)) t := by
  intro p
  induction p with
  | nil => intro t; rfl
  | cons i p ih =>
    intro t
    cases t with
    | mk k fl len cs =>
      rw [updateAt_cons, updateAt_cons, updateAt_cons, listModify_comp]
      have h2 : (fun x => updateAt p f (updateAt p g x)) =
          (fun x => updateAt p (fun y => f (g y)) x) := by
        funext x
        exact ih x
      rw [h2]

/-- An update whose function fixes the node found at the path is the
identity on the tree. -/
theorem updateAt_eq_self (f : TreeNode → TreeNode) :
    ∀ (p : List Nat) (t n : TreeNode),
    nodeAt t p = some n → f n = n → updateAt p f t = t := by
  intro p
  induction p with
  | nil =>
    intro t n h hf
    rw [nodeAt_nil] at h
    cases h
    exact hf
  | cons i p ih =>
    intro t n h hf
    cases t with
    | mk k fl len cs =>
      rw [nodeAt_cons] at h
      simp only [TreeNode.children] at h
      cases hget : cs.get? i with
      | none => rw [hget] at h; simp at h
      | some c =>
        rw [hget] at h
        rw [updateAt_cons, listModify_eq_of_get? _ hget, ih c n h hf,
          ← list_split_of_get? hget]

/-- Anything flattened from a member subtree is flattened from the
sibling list. -/
theorem mem_flattenList_of_mem_child : ∀ {cs : List TreeNode} {c : TreeNode}
    {x : Nat × TreeNode}, c ∈ cs → x ∈ c.flatten_internal → x ∈ flattenList cs := by
  intro cs c x hmem hx
  induction cs with
  | nil => cases hmem
  | cons d rest ih =>
    rw [flattenList_cons]
    rcases List.mem_cons.mp hmem with heq | htail
    · subst heq
      exact List.mem_append_left _ hx
    · exact List.mem_append_right _ (ih htail)

/-- A non-root node sitting at the end of an all-expanded path occurs
in the flattened projection (claim C8's `get_item` lookup succeeds). -/
theorem key_mem_flatten_of_path :
    ∀ (p : List Nat) (t n : TreeNode), p ≠ [] →
    nodeAt t p = some n → pathExpanded t p = true → n.flags.root = false →
    n.key ∈ (TreeNode.flatten_internal t).map Prod.fst := by
  intro p
  induction p with
  | nil => intro t n h; exact absurd rfl h
  | cons i p ih =>
    intro t n _ hat hpe hroot
    rw [nodeAt_cons] at hat
    rw [pathExpanded_cons] at hpe
    simp only [Bool.and_eq_true] at hpe
    obtain ⟨hexp, hpe2⟩ := hpe
    cases hget : t.children.get? i with
    | none => rw [hget] at hat; simp at hat
    | some c =>
      rw [hget] at hat
      rw [hget] at hpe2
      have hat2 : nodeAt c p = some n := hat
      have hpe3 : pathExpanded c p = true := hpe2
      have hcmem : c ∈ t.children := List.get?_mem hget
      have hsub : ∀ x, x ∈ c.flatten_internal →
          x ∈ (TreeNode.flatten_internal t).map id := by
        intro x hx
        rw [TreeNode.flatten_internal, hexp]
        simp only [List.map_id]
        exact List.mem_append_right _ (mem_flattenList_of_mem_child hcmem hx)
      cases p with
      | nil =>
        rw [nodeAt_nil] at hat2
        cases hat2
        have hx : (n.key, n) ∈ n.flatten_internal := by
          rw [TreeNode.flatten_internal, hroot]
          simp
        have h2 := hsub _ hx
        simp only [List.map_id] at h2
        exact List.mem_map_of_mem Prod.fst h2
      | cons j q =>
        have h2 := ih c n (by simp) hat2 hpe3 hroot
        obtain ⟨kv, hkv, hfst⟩ := List.mem_map.mp h2
        have h3 := hsub _ hkv
        simp only [List.map_id] at h3
        rw [← hfst]
        exact List.mem_map_of_mem Prod.fst h3

/-- Bridge from key membership to the `any`-based lookup guard. -/
theorem keyInFlat_of_mem {flat : List (Nat × TreeNode)} {k : Nat}
    (h : k ∈ flat.map Prod.fst) : keyInFlat flat k = true := by
  rw [keyInFlat, List.any_eq_true]
  obtain ⟨kv, hkv, hfst⟩ := List.mem_map.mp h
  exact ⟨kv, hkv, by simp [hfst]⟩

theorem key_mk (k : Nat) (fl : TreeFlags) (len : Nat) (cs : List TreeNode) :
    (TreeNode.mk k fl len cs).key = k := rfl

theorem flags_mk (k : Nat) (fl : TreeFlags) (len : Nat) (cs : List TreeNode) :
    (TreeNode.mk k fl len cs).flags = fl := rfl

theorem childrenLen_mk (k : Nat) (fl : TreeFlags) (len : Nat)
    (cs : List TreeNode) : (TreeNode.mk k fl len cs).childrenLen = len := rfl

theorem children_mk (k : Nat) (fl : TreeFlags) (len : Nat)
    (cs : List TreeNode) : (TreeNode.mk k fl len cs).children = cs := rfl

/-- Freshly loaded children (no children of their own, not `ROOT`)
contribute exactly one row each to the projection. -/
theorem flattenList_length_fresh : ∀ cs : List TreeNode,
    cs.all (fun c => c.children.isEmpty && !c.flags.root) = true →
    (flattenList cs).length = cs.length := by
  intro cs h
  induction cs with
  | nil => simp [flattenList_nil]
  | cons c rest ih =>
    simp only [List.all_cons, Bool.and_eq_true, Bool.not_eq_true'] at h
    obtain ⟨⟨hemp, hroot⟩, hrest⟩ := h
    have hch : c.children = [] := by simpa using hemp
    rw [flattenList_cons]
    rw [List.length_append, ih hrest]
    have h1 : c.flatten_internal.length = 1 := by
      rw [TreeNode.flatten_internal, hroot, hch, flattenList_nil]
      cases c.flags.expanded <;> simp
    rw [h1]
    simp [Nat.add_comm]

/-- Resolving a pending expansion — rewriting the flags of the node at
an all-expanded path to an `EXPANDED` state (keeping key, `ROOT` bit
and children) and inserting a list of fresh children there — grows the
flattened projection by exactly the number of inserted children. -/
theorem flatten_length_insert_resolved :
    ∀ (p : List Nat) (t n : TreeNode) (f : TreeNode → TreeNode)
      (cs : List TreeNode),
    nodeAt t p = some n → pathExpanded t p = true →
    n.children = [] →
    (f n).children = n.children → (f n).key = n.key →
    (f n).flags.root = n.flags.root → (f n).flags.expanded = true →
    cs.all (fun c => c.children.isEmpty && !c.flags.root) = true →
    (TreeNode.flatten_internal (insertAt (updateAt p f t) p cs)).length =
      (TreeNode.flatten_internal t).length + cs.length := by
  intro p
  induction p with
  | nil =>
    intro t n f cs hat _ hch hfch hfk hfr hfe hcs
    rw [nodeAt_nil] at hat
    obtain rfl : t = n := by injection hat
    rw [updateAt_nil]
    cases hm : f t with
    | mk k2 fl2 len2 cs2 =>
      rw [hm] at hfch hfr hfe
      have hcs2 : cs2 = t.children := hfch
      have hfr2 : fl2.root = t.flags.root := hfr
      have hfe2 : fl2.expanded = true := hfe
      rw [hch] at hcs2
      subst hcs2
      rw [insertAt_nil]
      rw [TreeNode.flatten_internal, TreeNode.flatten_internal]
      rw [children_mk, hch, flattenList_nil]
      simp only [List.nil_append, hfe2, hfr2, if_true]
      cases hfl : t.flags.root <;>
        simp [hfl, flags_mk, key_mk, hfe2, hfr2,
          flattenList_length_fresh cs hcs, Nat.add_comm]
  | cons i p ih =>
    intro t n f cs hat hpe hch hfch hfk hfr hfe hcs
    cases t with
    | mk k fl len cs0 =>
      rw [nodeAt_cons] at hat
      rw [pathExpanded_cons] at hpe
      simp only [TreeNode.flags, TreeNode.children, Bool.and_eq_true] at hat hpe
      obtain ⟨hexp, hpe2⟩ := hpe
      cases hget : cs0.get? i with
      | none => rw [hget] at hat; simp at hat
      | some c =>
        rw [hget] at hat hpe2
        have hat2 : nodeAt c p = some n := hat
        have hpe3 : pathExpanded c p = true := hpe2
        have hIH := ih c n f cs hat2 hpe3 hch hfch hfk hfr hfe hcs
        rw [updateAt_cons, insertAt_cons, listModify_comp]
        rw [listModify_eq_of_get? _ hget]
        have hsplit := list_split_of_get? hget
        rw [TreeNode.flatten_internal, TreeNode.flatten_internal]
        simp only [TreeNode.flags, TreeNode.children, TreeNode.key, hexp,
          if_true]
        conv_rhs => rw [hsplit]
        rw [flattenList_append, flattenList_append, flattenList_cons,
          flattenList_cons]
        simp only [List.length_append]
        rw [hIH]
        cases fl.root <;> simp <;> omega

/-- Collapsing (clearing `EXPANDED`) and re-expanding (setting it back)
restores an expanded node exactly. -/
theorem reexpand_collapse_eq (n : TreeNode) (he : n.flags.expanded = true) :
    reexpandNode (collapseNode n) = n := by
  cases n with
  | mk k fl len cs =>
    cases fl
    simp only [flags_mk] at he
    subst he
    rfl

/-- Claim C8: on a node that is `EXPANDED`, `READY` and expandable,
sitting at an all-expanded path, `expand` (collapse) followed by
`expand` (fast re-expand) restores the tree and the flattened
projection exactly, with the children retained throughout and without
any `provider.expand` call in either step (the provider-call counter is
unchanged, for any provider outcome). -/
theorem claim_c8_collapse_reexpand_roundtrip (out : ProvOutcome) (s : DT)
    (p : List Nat) (n : TreeNode)
    (hflat : s.flat = s.root.flatten)
    (hat : nodeAt s.root p = some n)
    (hpe : pathExpanded s.root p = true)
    (hg : p = [] ∨ n.flags.root = false)
    (hexp : n.flags.expandable = true)
    (he : n.flags.expanded = true)
    (hr : n.flags.ready = true) :
    ∃ s1 s2 : DT,
      DT.expand out s p = Except.ok s1 ∧
      DT.expand out s1 p = Except.ok s2 ∧
      s1.provCalls = s.provCalls ∧
      s2.root = s.root ∧ s2.flat = s.flat ∧ s2.provCalls = s.provCalls := by
  have hguard1 : (!p.isEmpty && !keyInFlat s.flat n.key) = false := by
    cases p with
    | nil => rfl
    | cons i q =>
      have hroot1 : n.flags.root = false := by
        rcases hg with hp | hroot1
        · exact absurd hp (by simp)
        · exact hroot1
      have hk : n.key ∈ s.flat.map Prod.fst := by
        rw [hflat]
        exact key_mem_flatten_of_path (i :: q) s.root n (by simp) hat hpe hroot1
      simp [keyInFlat_of_mem hk]
  have h1 : DT.expand out s p = Except.ok
      ⟨updateAt p collapseNode s.root,
        (updateAt p collapseNode s.root).flatten,
        s.notes ++ [Note.all], s.provCalls⟩ := by
    rw [DT.expand, hat]
    simp only [hguard1, hexp, he, Bool.not_true, if_true, if_false,
      Bool.false_eq_true]
  set root1 := updateAt p collapseNode s.root with hroot1def
  set s1 : DT := ⟨root1, root1.flatten, s.notes ++ [Note.all], s.provCalls⟩
    with hs1def
  have hat1 : nodeAt root1 p = some (collapseNode n) :=
    nodeAt_updateAt collapseNode p s.root n hat
  have hpe1 : pathExpanded root1 p = true := by
    rw [hroot1def, pathExpanded_updateAt]
    exact hpe
  have hcflags : (collapseNode n).flags = { n.flags with expanded := false } := by
    rw [collapseNode, flags_set_flags]
  have hckey : (collapseNode n).key = n.key := key_set_flags n _
  have hguard2 : (!p.isEmpty && !keyInFlat s1.flat (collapseNode n).key) = false := by
    cases p with
    | nil => rfl
    | cons i q =>
      have hroot2 : n.flags.root = false := by
        rcases hg with hp | hroot2
        · exact absurd hp (by simp)
        · exact hroot2
      have hcroot : (collapseNode n).flags.root = false := by
        rw [hcflags]
        exact hroot2
      have hk : (collapseNode n).key ∈ s1.flat.map Prod.fst :=
        key_mem_flatten_of_path (i :: q) root1 (collapseNode n) (by simp)
          hat1 hpe1 hcroot
      simp [keyInFlat_of_mem hk]
  have h2 : DT.expand out s1 p = Except.ok
      ⟨updateAt p reexpandNode root1,
        (updateAt p reexpandNode root1).flatten,
        s1.notes ++ [Note.all], s1.provCalls⟩ := by
    rw [DT.expand]
    have hs1root : s1.root = root1 := rfl
    rw [hs1root, hat1]
    have hcexp : (collapseNode n).flags.expanded = false := by
      rw [hcflags]
    have hcexpandable : (collapseNode n).flags.expandable = true := by
      rw [hcflags]
      exact hexp
    have hcready : (collapseNode n).flags.ready = true := by
      rw [hcflags]
      exact hr
    simp only [hguard2, hcexp, hcexpandable, hcready, Bool.not_true,
      if_true, if_false, Bool.false_eq_true]
  have hback : updateAt p reexpandNode root1 = s.root := by
    rw [hroot1def, updateAt_comp]
    exact updateAt_eq_self _ p s.root n hat (reexpand_collapse_eq n he)
  refine ⟨s1, _, h1, h2, rfl, ?_, ?_, rfl⟩
  · exact hback
  · show (updateAt p reexpandNode root1).flatten = s.flat
    rw [hback, hflat]

/-- Reduction of `DynamicTree::expand` on an expandable, not-expanded,
not-ready node whose provider returns a pending result: toggle
`LOADING`, notify the single item, count one provider call, leave the
projection untouched. -/
theorem expand_async_eq (s : DT) (p : List Nat) (n : TreeNode)
    (hflat : s.flat = s.root.flatten)
    (hat : nodeAt s.root p = some n)
    (hpe : pathExpanded s.root p = true)
    (hg : p = [] ∨ n.flags.root = false)
    (hexp : n.flags.expandable = true)
    (he : n.flags.expanded = false)
    (hr : n.flags.ready = false) :
    DT.expand ProvOutcome.async s p = Except.ok
      ⟨updateAt p toggleLoadingNode s.root, s.flat,
        s.notes ++ [Note.item n.key], s.provCalls + 1⟩ := by
  have hguard1 : (!p.isEmpty && !keyInFlat s.flat n.key) = false := by
    cases p with
    | nil => rfl
    | cons i q =>
      have hroot1 : n.flags.root = false := by
        rcases hg with hp | hroot1
        · exact absurd hp (by simp)
        · exact hroot1
      have hk : n.key ∈ s.flat.map Prod.fst := by
        rw [hflat]
        exact key_mem_flatten_of_path (i :: q) s.root n (by simp) hat hpe hroot1
      simp [keyInFlat_of_mem hk]
  rw [DT.expand, hat]
  simp only [hguard1, hexp, he, hr, Bool.not_true, if_true, if_false,
    Bool.false_eq_true]

/-- Claim C7: requesting expansion of an expandable node that is
neither `EXPANDED` nor `READY` (and not yet `LOADING`), when the
provider returns a pending result, immediately sets `LOADING` on that
node and emits exactly one single-item notification for its key, while
the projection — hence `count()` — is unchanged; when the pending
result later resolves with the child list, the projection is rebuilt
with exactly `cs.length` more rows and a full-update notification is
appended after the rebuild. -/
theorem claim_c7_async_expand_lifecycle (s : DT) (p : List Nat)
    (n : TreeNode) (cs : List TreeNode)
    (hflat : s.flat = s.root.flatten)
    (hat : nodeAt s.root p = some n)
    (hpe : pathExpanded s.root p = true)
    (hg : p = [] ∨ n.flags.root = false)
    (hexp : n.flags.expandable = true)
    (he : n.flags.expanded = false)
    (hr : n.flags.ready = false)
    (hl : n.flags.loading = false)
    (hch : n.children = [])
    (hcs : cs.all (fun c => c.children.isEmpty && !c.flags.root) = true) :
    ∃ s1 s2 : DT,
      DT.expand ProvOutcome.async s p = Except.ok s1 ∧
      (nodeAt s1.root p).map TreeNode.flags =
        some { n.flags with loading := true } ∧
      s1.notes = s.notes ++ [Note.item n.key] ∧
      s1.flat = s.flat ∧
      DT.expandResolve s1 p (Except.ok cs) = Except.ok s2 ∧
      s2.flat.length = s.flat.length + cs.length ∧
      s2.notes = s1.notes ++ [Note.all] := by
  have h1 := expand_async_eq s p n hflat hat hpe hg hexp he hr
  set root1 := updateAt p toggleLoadingNode s.root with hroot1def
  set s1 : DT := ⟨root1, s.flat, s.notes ++ [Note.item n.key],
    s.provCalls + 1⟩ with hs1def
  have hat1 : nodeAt root1 p = some (toggleLoadingNode n) :=
    nodeAt_updateAt toggleLoadingNode p s.root n hat
  have hload : (toggleLoadingNode n).flags = { n.flags with loading := true } := by
    rw [toggleLoadingNode, flags_set_flags, hl]
    rfl
  set F : TreeNode → TreeNode := fun x => resolveNode (toggleLoadingNode x)
    with hFdef
  have hFch : (F n).children = n.children := by
    rw [hFdef]
    simp only [resolveNode, toggleLoadingNode, children_set_flags]
  have hFkey : (F n).key = n.key := by
    rw [hFdef]
    simp only [resolveNode, toggleLoadingNode, key_set_flags]
  have hFroot : (F n).flags.root = n.flags.root := by
    rw [hFdef]
    simp only [resolveNode, toggleLoadingNode, flags_set_flags]
  have hFexp : (F n).flags.expanded = true := by
    rw [hFdef]
    simp only [resolveNode, toggleLoadingNode, flags_set_flags]
  have hlen := flatten_length_insert_resolved p s.root n F cs hat hpe hch
    hFch hFkey hFroot hFexp hcs
  set root2 := insertAt (updateAt p resolveNode root1) p cs with hroot2def
  have hcomp : updateAt p resolveNode root1 = updateAt p F s.root := by
    rw [hroot1def, updateAt_comp]
  have h3 : DT.expandResolve s1 p (Except.ok cs) = Except.ok
      ⟨root2, root2.flatten, s1.notes ++ [Note.all], s1.provCalls⟩ := by
    rw [DT.expandResolve]
  refine ⟨s1, _, h1, ?_, rfl, rfl, h3, ?_, rfl⟩
  · rw [hs1def]
    show (nodeAt root1 p).map TreeNode.flags = _
    rw [hat1, Option.map, hload]
  · show root2.flatten.length = s.flat.length + cs.length
    rw [hroot2def, hcomp, TreeNode.flatten, hflat, TreeNode.flatten]
    exact hlen

/-- Claim C6, amended: when the pending result of an asynchronous
expansion fails, the spawned resolution task panics at
`job.await.unwrap_throw()` before touching any state: the node is left
with `LOADING` still set (not cleared), it stays collapsed and
not-`READY`, no children are inserted, the projection is unchanged from
the moment the request was issued, and no notification — error-carrying
or otherwise — is delivered.  The failure is an uncontrolled abort of
the notification pipeline, not a handled error. -/
theorem claim_c6_failed_resolution_aborts (s : DT) (p : List Nat)
    (n : TreeNode)
    (hflat : s.flat = s.root.flatten)
    (hat : nodeAt s.root p = some n)
    (hpe : pathExpanded s.root p = true)
    (hg : p = [] ∨ n.flags.root = false)
    (hexp : n.flags.expandable = true)
    (he : n.flags.expanded = false)
    (hr : n.flags.ready = false)
    (hl : n.flags.loading = false) :
    ∃ s1 : DT,
      DT.expand ProvOutcome.async s p = Except.ok s1 ∧
      (nodeAt s1.root p).map TreeNode.flags =
        some { n.flags with loading := true } ∧
      s1.flat = s.flat ∧
      DT.expandResolve s1 p (Except.error ()) =
        Except.error "unwrap_throw failed: pending expansion returned Err" := by
  have h1 := expand_async_eq s p n hflat hat hpe hg hexp he hr
  set root1 := updateAt p toggleLoadingNode s.root with hroot1def
  set s1 : DT := ⟨root1, s.flat, s.notes ++ [Note.item n.key],
    s.provCalls + 1⟩ with hs1def
  have hat1 : nodeAt root1 p = some (toggleLoadingNode n) :=
    nodeAt_updateAt toggleLoadingNode p s.root n hat
  have hload : (toggleLoadingNode n).flags = { n.flags with loading := true } := by
    rw [toggleLoadingNode, flags_set_flags, hl]
    rfl
  refine ⟨s1, h1, ?_, rfl, ?_⟩
  · rw [hs1def]
    show (nodeAt root1 p).map TreeNode.flags = _
    rw [hat1, Option.map, hload]
  · rw [DT.expandResolve]

/-- Witness for claim C6: the scenario on `exAsyncDT` (expanded root,
expandable unloaded child `3`), with a failing pending result. -/
theorem claim_c6_witness :
    ∃ s1 : DT,
      DT.expand ProvOutcome.async exAsyncDT [0] = Except.ok s1 ∧
      (nodeAt s1.root [0]).map TreeNode.flags =
        some (TreeFlags.mk false false true false true) ∧
      s1.flat = exAsyncDT.flat ∧
      DT.expandResolve s1 [0] (Except.error ()) =
        Except.error "unwrap_throw failed: pending expansion returned Err" :=
  claim_c6_failed_resolution_aborts exAsyncDT [0]
    (TreeNode.mk 3 { expandable := true } 0 [])
    rfl rfl rfl (Or.inr rfl) rfl rfl rfl rfl

/-- Counterexample to claim C6 as stated: with node `3` mid-pending
(`LOADING` set), a failing resolution neither clears `LOADING` nor
delivers an error notification — it aborts the task outright, so the
controller state never transitions at all. -/
theorem claim_c6_counterexample :
    DT.expandResolve
        ⟨updateAt [0] toggleLoadingNode exAsyncRoot,
          exAsyncRoot.flatten, [Note.item 3], 1⟩
        [0] (Except.error ()) =
      Except.error "unwrap_throw failed: pending expansion returned Err" ∧
    (nodeAt (updateAt [0] toggleLoadingNode exAsyncRoot) [0]).map
        (fun m => m.flags.loading) = some true := by
  constructor
  · rw [DT.expandResolve]
  · rfl

/-- Witness for claim C7: the same scenario on `exAsyncDT` with a
successful resolution delivering two children; `count()` goes from 1
to 3. -/
theorem claim_c7_witness :
    ∃ s1 s2 : DT,
      DT.expand ProvOutcome.async exAsyncDT [0] = Except.ok s1 ∧
      (nodeAt s1.root [0]).map TreeNode.flags =
        some (TreeFlags.mk false false true false true) ∧
      s1.notes = exAsyncDT.notes ++ [Note.item 3] ∧
      s1.flat = exAsyncDT.flat ∧
      DT.expandResolve s1 [0] (Except.ok exAsyncChildren) = Except.ok s2 ∧
      s2.flat.length = exAsyncDT.flat.length + 2 ∧
      s2.notes = s1.notes ++ [Note.all] :=
  claim_c7_async_expand_lifecycle exAsyncDT [0]
    (TreeNode.mk 3 { expandable := true } 0 []) exAsyncChildren
    rfl rfl rfl (Or.inr rfl) rfl rfl rfl rfl rfl rfl

/-- Witness for claim C8: collapse then re-expand the `EXPANDED`,
`READY` folder `6` of `exRoundDT`. -/
theorem claim_c8_witness :
    ∃ s1 s2 : DT,
      DT.expand ProvOutcome.ready exRoundDT [0] = Except.ok s1 ∧
      DT.expand ProvOutcome.ready s1 [0] = Except.ok s2 ∧
      s1.provCalls = exRoundDT.provCalls ∧
      s2.root = exRoundDT.root ∧ s2.flat = exRoundDT.flat ∧
      s2.provCalls = exRoundDT.provCalls :=
  claim_c8_collapse_reexpand_roundtrip ProvOutcome.ready exRoundDT [0]
    (TreeNode.mk 6 { expanded := true, ready := true, expandable := true } 1
      [TreeNode.mk 61 {} 0 []])
    rfl rfl rfl (Or.inr rfl) rfl rfl rfl
